import Mathlib

/-!
Verification of the `node-run-cmd` command orchestration library
(`src/index.js`) against its natural-language specification.

The development shallowly embeds the two functions of the source file:

* `run`          (src/index.js lines 26-100): the single-command tokenizer
                 and spawner.  Spawning is an external collaborator, so the
                 behaviour of the spawned OS process (its output chunks and
                 its terminal `close`/`error` event) is a parameter
                 (`ProcBeh`); `run` is modelled as a pure function from the
                 resolved options and the process behaviour to the trace of
                 observable actions (logger calls, the spawn call, callback
                 invocations) plus the settled outcome of the returned
                 promise.
* `runMultiple`  (src/index.js lines 151-216): the batch orchestrator,
                 including input normalization, the three-layer option
                 overlay and the sequential / parallel scheduling policies.

JS objects are embedded as association lists of string keys and `Value`s
(first binding wins on lookup, as JS property lookup does after
`Object.assign`); machine-level details that the claims do not touch
(prototype chains, property enumeration order) are not modelled.
-/

namespace NodeRunCmd

/-- A JS value as far as this library inspects values: strings, booleans,
numbers, functions (identified opaquely by a tag) and `null`.  `undefined`
is represented by absence (`Option.none` at lookup sites). -/
inductive Value where
  | vstr (s : String)
  | vbool (b : Bool)
  | vnum (n : Int)
  | vfn (tag : String)
  | vnull
deriving DecidableEq

/-- A JS object: an association list of properties.  Lookup takes the first
binding, so prepending overrides, which models `Object.assign` layering. -/
abbrev Obj := List (String × Value)

/-- Property lookup (`o[k]`); `none` plays the role of `undefined`. -/
def getv (o : Obj) (k : String) : Option Value :=
  (o.find? fun p => p.1 == k).map Prod.snd

/-- `Object.assign({}, a, b)`: a fresh object in which `b`'s properties win
over `a`'s.  With first-binding-wins lookup, listing `b` first achieves
exactly that. -/
def assign (a b : Obj) : Obj := b ++ a

/-- JS truthiness of a possibly-absent value (`if (x)`). -/
def truthy? : Option Value → Bool
  | some (.vstr s) => s ≠ ""
  | some (.vbool b) => b
  | some (.vnum n) => n ≠ 0
  | some (.vfn _) => true
  | some .vnull => false
  | none => false

/-- `typeof x === 'function'`. -/
def isFn : Option Value → Bool
  | some (.vfn _) => true
  | _ => false

/-- JS string coercion (used by `'$ ' + options.command`). -/
def jsDisplay : Option Value → String
  | some (.vstr s) => s
  | some (.vbool b) => cond b "true" "false"
  | some (.vnum n) => toString n
  | some (.vfn tag) => tag
  | some .vnull => "null"
  | none => "undefined"

/-- The `spawnOptsAllowedKeys` allow-list of src/index.js lines 33-41. -/
def spawnOptsAllowedKeys : List String :=
  ["cwd", "env", "stdio", "detached", "uid", "gid", "shell"]

/-- The `for (const key in options)` loop of src/index.js lines 42-47:
`spawnProcessOpts` keeps exactly the properties whose key is in the
allow-list. -/
def spawnProjection (o : Obj) : Obj :=
  o.filter fun p => spawnOptsAllowedKeys.contains p.1

/-! ## Tokenization

src/index.js line 51 splits the command with the JS regex
`/[^"\s]+|"(?:\\"|[^"])+"/g` and line 52-54 strips wrapping quotes from
each piece.  The functions below transcribe the backtracking regex engine:
at each scan position the first alternative (a maximal run of
non-quote, non-whitespace characters) is tried, then the quoted
alternative; inside the quoted alternative the escape branch `\"` is
preferred, with backtracking (splitting a trailing `\"` pair into a lone
backslash plus closing quote) when no closing quote is found. -/

/-- The JS `\s` character class, restricted to the ASCII whitespace
characters (the source never meets the Unicode ones in the claims). -/
def jsSpace (c : Char) : Bool :=
  c = ' ' || c = '\t' || c = '\n' || c = '\r' || c = '\x0b' || c = '\x0c'

/-- A character the first regex alternative `[^"\s]+` accepts. -/
def nonDelim (c : Char) : Bool :=
  !(c = '"') && !jsSpace c

/-- Matching of `(?:\\"|[^"])*"` against a prefix of the input (the
input starts just after the characters already consumed inside the
quotes): returns how many characters are consumed, the last one being the
closing quote, following the engine's greedy order — try the `\"` escape,
then a plain non-quote character, then the closing quote. -/
def qrest : List Char → Option Nat
  | [] => none
  | '"' :: _ => some 1
  | '\\' :: '"' :: t =>
    match qrest t with
    | some n => some (n + 2)
    | none => some 2
  | _ :: t => (qrest t).map (· + 1)

/-- Matching of `(?:\\"|[^"])+"` (at least one character inside the
quotes) against a prefix of the input just after the opening quote. -/
def q1 : List Char → Option Nat
  | [] => none
  | '"' :: _ => none
  | '\\' :: '"' :: t =>
    match qrest t with
    | some n => some (n + 2)
    | none => some 2
  | _ :: t => (qrest t).map (· + 1)

/-- The global regex scan, fuelled to keep the recursion structural (the
fuel is in practice the length of the input, which always suffices since
every step consumes at least one character). -/
def jsRawTokensF : Nat → List Char → List (List Char)
  | 0, _ => []
  | _, [] => []
  | fuel + 1, c :: t =>
    if c = '"' then
      match q1 t with
      | some n => ('"' :: t.take n) :: jsRawTokensF fuel (t.drop n)
      | none => jsRawTokensF fuel t
    else if jsSpace c then
      jsRawTokensF fuel t
    else
      (c :: t.takeWhile nonDelim) :: jsRawTokensF fuel (t.dropWhile nonDelim)

/-- All matches of `/[^"\s]+|"(?:\\"|[^"])+"/g` over the input. -/
def jsRawTokensL (s : List Char) : List (List Char) :=
  jsRawTokensF s.length s

/-- The mapping function of src/index.js line 53: strip a leading and
trailing double quote when both are present (`expr.slice(1, -1)`). -/
def stripQuotes (tok : List Char) : List Char :=
  if tok.head? = some '"' ∧ tok.getLast? = some '"' then (tok.drop 1).dropLast
  else tok

/-- The `cmds` list of src/index.js lines 51-54: the regex matches with
wrapping quotes stripped.  The first element is the executable
(`runCMD`, line 55), the rest the arguments (line 56). -/
def jsTokens (s : String) : List String :=
  (jsRawTokensL s.data).map fun tok => String.mk (stripQuotes tok)

example : jsTokens "ls -la" = ["ls", "-la"] := by decide
example : jsTokens "a \"b c\" d" = ["a", "b c", "d"] := by decide
example : jsTokens "x \"a\\\"b\"" = ["x", "a\\\"b"] := by decide
example : jsTokens "" = [] := by decide
example : jsTokens "   " = [] := by decide
example : jsTokens "\"\"" = [] := by decide

/-! ## The single-command spawner `run` (src/index.js lines 26-100) -/

/-- One output chunk delivered by the spawned process, on stdout or
stderr, decoded as text (`data.toString()`).  The chunk guard
`if (data)` of lines 61 and 73 always passes, because `data` is a Buffer
object and every object is truthy in JS. -/
inductive ChunkEv where
  | out (s : String)
  | err (s : String)
deriving DecidableEq

/-- The terminal event the OS reports for the spawned process: the
`close` event with an exit code, or the `error` event (whose payload the
source passes around unchanged under the name `code`; it is opaque here,
represented by an integer). -/
inductive Terminal where
  | close (code : Int)
  | procError (code : Int)
deriving DecidableEq

/-- The value `run` resolves with (`resolve(code)` on lines 88 and 97). -/
def codeOf : Terminal → Int
  | .close c => c
  | .procError c => c

/-- Whether the terminal event was the `error` event; this is what the
source reports through the second argument of `onDone` (line 95). -/
def erroredOf : Terminal → Bool
  | .close _ => false
  | .procError _ => true

/-- The behaviour of one spawned OS process: its interleaved output
chunks in OS delivery order, then its terminal event.  This is the
external collaborator `run` is wired to. -/
structure ProcBeh where
  chunks : List ChunkEv
  terminal : Terminal
deriving DecidableEq

/-- One call to the OS spawn primitive: `spawn(runCMD, cmds,
spawnProcessOpts)` of src/index.js line 57. -/
structure SpawnCall where
  exe : String
  args : List String
  opts : Obj
deriving DecidableEq

/-- An observable action of `run`: a logger invocation, the spawn call,
or one of the `onData` / `onError` / `onDone` callback invocations. -/
inductive RunEv where
  | log (s : String)
  | spawned (c : SpawnCall)
  | onDataCall (s : String)
  | onErrCall (s : String)
  | onDoneCall (code : Int) (errored : Bool)
deriving DecidableEq

/-- The error channel: the rejection value `'Invalid input'` of
src/index.js line 213, or an exception thrown by the engine (`TypeError`
and friends), which rejects the enclosing promise. -/
inductive JsErr where
  | invalidInput
  | typeError (msg : String)
deriving DecidableEq

/-- The settled state of the promise `run` returns: resolved with a
value, or rejected (which for this code only happens when the executor
function throws, e.g. a `TypeError`). -/
inductive JsResult where
  | ok (v : Int)
  | err (e : JsErr)
deriving DecidableEq

/-- Everything observable about one `run` invocation: its action trace in
program order, and how its promise settles. -/
structure RunTrace where
  events : List RunEv
  outcome : JsResult
deriving DecidableEq

/-- The stream listeners of src/index.js lines 60-81: for each chunk, log
it when verbose, then hand it to the matching callback when that callback
is a function. -/
def chunkEvents (options : Obj) (cks : List ChunkEv) : List RunEv :=
  cks.flatMap fun ck =>
    match ck with
    | .out s =>
      (if truthy? (getv options "verbose") then [RunEv.log s] else []) ++
      (if isFn (getv options "onData") then [RunEv.onDataCall s] else [])
    | .err s =>
      (if truthy? (getv options "verbose") then [RunEv.log s] else []) ++
      (if isFn (getv options "onError") then [RunEv.onErrCall s] else [])

/-- The close/error listeners of src/index.js lines 84-98: call `onDone`
when it is a function — with the code alone on `close` (the absent second
argument reads as falsy), with the code and `true` on `error`. -/
def doneEvents (options : Obj) (t : Terminal) : List RunEv :=
  if isFn (getv options "onDone") then [RunEv.onDoneCall (codeOf t) (erroredOf t)]
  else []

/-- The `run` function of src/index.js lines 26-100, as a function of the
resolved options and the spawned process behaviour.  Program order:
verbose pre-spawn log (line 28-30, throwing when `options.logger` is not
callable), allow-list projection (lines 33-47), tokenization (lines
51-56, throwing when the command is not a string or the regex has no
match, since `null.map` throws), the spawn call (line 57), the stream
events, and the terminal event; the promise resolves with the code in
both terminal cases and rejects only when the executor throws. -/
def run (options : Obj) (beh : ProcBeh) : RunTrace :=
  let verbose := truthy? (getv options "verbose")
  if verbose && !isFn (getv options "logger") then
    { events := [], outcome := .err (.typeError "options.logger is not a function") }
  else
    let preLogs := if verbose then [RunEv.log ("$ " ++ jsDisplay (getv options "command"))] else []
    match getv options "command" with
    | some (.vstr cmd) =>
      match jsTokens cmd with
      | [] =>
        { events := preLogs,
          outcome := .err (.typeError "cannot read map of null") }
      | exe :: args =>
        { events :=
            preLogs ++ RunEv.spawned ⟨exe, args, spawnProjection options⟩ ::
              (chunkEvents options beh.chunks ++ doneEvents options beh.terminal),
          outcome := .ok (codeOf beh.terminal) }
    | _ =>
      { events := preLogs,
        outcome := .err (.typeError "options.command.match is not a function") }

/-- Extract a logger invocation from an event. -/
def evLog : RunEv → Option String
  | .log s => some s
  | _ => none

/-- Extract a spawn call from an event. -/
def evSpawn : RunEv → Option SpawnCall
  | .spawned c => some c
  | _ => none

/-- Extract an `onData` invocation from an event. -/
def evData : RunEv → Option String
  | .onDataCall s => some s
  | _ => none

/-- Extract an `onError` invocation from an event. -/
def evErr : RunEv → Option String
  | .onErrCall s => some s
  | _ => none

/-- Extract an `onDone` invocation from an event. -/
def evDone : RunEv → Option (Int × Bool)
  | .onDoneCall c b => some (c, b)
  | _ => none

/-- The logger invocations of a `run`, in order. -/
def logsOf (r : RunTrace) : List String :=
  r.events.filterMap evLog

/-- The spawn calls of a `run`, in order (empty when no process was
spawned). -/
def spawnsOf (r : RunTrace) : List SpawnCall :=
  r.events.filterMap evSpawn

/-- The `onData` callback invocations of a `run`, in order. -/
def dataCallsOf (r : RunTrace) : List String :=
  r.events.filterMap evData

/-- The `onError` callback invocations of a `run`, in order. -/
def errCallsOf (r : RunTrace) : List String :=
  r.events.filterMap evErr

/-- The `onDone` callback invocations of a `run`, in order, with the
errored flag the source passes (absent second argument read as `false`). -/
def doneCallsOf (r : RunTrace) : List (Int × Bool) :=
  r.events.filterMap evDone

/-- The text of a chunk, whichever stream it arrived on. -/
def chunkText : ChunkEv → String
  | .out s => s
  | .err s => s

/-- The stdout chunk texts, in order. -/
def outTexts (cks : List ChunkEv) : List String :=
  cks.filterMap fun ck => match ck with | .out s => some s | _ => none

/-- The stderr chunk texts, in order. -/
def errTexts (cks : List ChunkEv) : List String :=
  cks.filterMap fun ck => match ck with | .err s => some s | _ => none

/-! ## The batch orchestrator `runMultiple` (src/index.js lines 151-216) -/

/-- An element of an input array handed to `runMultiple`: a command
string, or a command descriptor object. -/
inductive JsElem where
  | str (s : String)
  | obj (o : Obj)
deriving DecidableEq

/-- The `input` argument of `runMultiple`: a string, a descriptor
object, an array, or one of the shapes the source rejects (a number,
a boolean, `null`). -/
inductive JsInput where
  | str (s : String)
  | obj (o : Obj)
  | arr (elems : List JsElem)
  | num (n : Int)
  | bool (b : Bool)
  | null
deriving DecidableEq

/-- Array-element normalization of src/index.js line 178: descriptor
objects pass through, strings become `{ command: <string> }`. -/
def normalizeElem : JsElem → Obj
  | .str s => [("command", .vstr s)]
  | .obj o => o

/-- Input normalization of src/index.js lines 166-179: a string becomes a
one-element descriptor array (line 167), a lone object is wrapped (line
174), an array is normalized element-wise (line 178); numbers, booleans
and `null` fall through to the `reject('Invalid input')` branch
(line 213), signalled here by `none`. -/
def normalizeInput : JsInput → Option (List Obj)
  | .str s => some [[("command", .vstr s)]]
  | .obj o => some [o]
  | .arr es => some (es.map normalizeElem)
  | .num _ => none
  | .bool _ => none
  | .null => none

/-- The `defaultOpts` object of src/index.js lines 155-160; `procCwd` is
the snapshot of `process.cwd()` taken once per batch invocation. -/
def defaultOpts (procCwd : String) : Obj :=
  [("cwd", .vstr procCwd), ("verbose", .vbool false),
   ("mode", .vstr "sequential"), ("logger", .vfn "console.log")]

/-- The `globalOpts` object of src/index.js line 163:
`Object.assign({}, defaultOpts, options)`. -/
def globalOptsOf (procCwd : String) (options : Obj) : Obj :=
  assign (defaultOpts procCwd) options

/-- The per-command `resolvedOpts` of src/index.js lines 184 and 195:
`Object.assign({}, globalOpts, cmd)`, a fresh three-layer overlay
(defaults, then global options, then the command's own fields). -/
def resolveOpts (procCwd : String) (options cmd : Obj) : Obj :=
  assign (globalOptsOf procCwd options) cmd

/-- The scheduling policy chosen at src/index.js line 182. -/
inductive Mode where
  | sequential
  | parallel
deriving DecidableEq

/-- Mode selection (src/index.js line 182): strict string comparison
`globalOpts.mode === 'parallel'`; anything else falls to the sequential
branch. -/
def chosenMode (procCwd : String) (options : Obj) : Mode :=
  if getv (globalOptsOf procCwd options) "mode" = some (.vstr "parallel") then .parallel
  else .sequential

/-- How the batch promise settles. -/
inductive JsBatchRes where
  | ok (vs : List Int)
  | err (e : JsErr)
deriving DecidableEq

/-- The sequential generator loop of src/index.js lines 190-209: commands
are dispatched one at a time; each `yield run(resolvedOpts)` must settle
before the loop advances; a rejection is re-thrown into the generator and
caught, rejecting the batch and dispatching nothing further; resolved
values are pushed onto `results` in loop order.  The index `i` counts the
commands already dispatched, so the `i`-th dispatched command is wired to
process behaviour `behs i`. -/
def seqExec (g : Obj) (behs : Nat → ProcBeh) : List Obj → Nat → List RunTrace × JsBatchRes
  | [], _ => ([], .ok [])
  | c :: rest, i =>
    let r := run (assign g c) (behs i)
    match r.outcome with
    | .ok v =>
      match seqExec g behs rest (i + 1) with
      | (ts, .ok vs) => (r :: ts, .ok (v :: vs))
      | (ts, .err e) => (r :: ts, .err e)
    | .err e => ([r], .err e)

/-- `Promise.all` collection: positional results; the first rejection in
input order wins (every rejection of this code happens synchronously at
promise creation, and `Promise.all` subscribes in input order). -/
def collectAll : List RunTrace → JsBatchRes
  | [] => .ok []
  | r :: rest =>
    match r.outcome with
    | .err e => .err e
    | .ok v =>
      match collectAll rest with
      | .ok vs => .ok (v :: vs)
      | .err e => .err e

/-- The parallel branch of src/index.js lines 182-188: every command is
dispatched by the synchronous `commands.map`, in input order, and
`Promise.all` resolves positionally. -/
def parExec (g : Obj) (behs : Nat → ProcBeh) (cmds : List Obj) : List RunTrace × JsBatchRes :=
  let ts := cmds.enum.map fun p => run (assign g p.2) (behs p.1)
  (ts, collectAll ts)

/-- Everything observable about one `runMultiple` invocation: which
scheduling branch ran (`none` when the input was rejected before
dispatch), the traces of the dispatched commands in dispatch order, and
how the batch promise settles. -/
structure BatchTrace where
  mode : Option Mode
  traces : List RunTrace
  result : JsBatchRes
deriving DecidableEq

/-- The `runMultiple` function of src/index.js lines 151-216 (exported as
`run`), as a function of the input, the caller's global options, the
`process.cwd()` snapshot and the behaviours of the processes spawned for
the successively dispatched commands.  The sequential branch's final
`if (results)` check (line 199) always takes the resolve arm, an array
being truthy. -/
def runMultiple (input : JsInput) (options : Obj) (procCwd : String)
    (behs : Nat → ProcBeh) : BatchTrace :=
  match normalizeInput input with
  | none => ⟨none, [], .err .invalidInput⟩
  | some cmds =>
    match chosenMode procCwd options with
    | .parallel =>
      let p := parExec (globalOptsOf procCwd options) behs cmds
      ⟨some .parallel, p.1, p.2⟩
    | .sequential =>
      let p := seqExec (globalOptsOf procCwd options) behs cmds 0
      ⟨some .sequential, p.1, p.2⟩

/-- Well-formedness of one command's resolved options, read off the error
analysis of `run`: the `command` property is a string with at least one
token, and if `verbose` is truthy then `logger` is callable.  Exactly
under these conditions `run` resolves (with the process's code) no matter
how the process behaves. -/
def wfOpts (o : Obj) : Bool :=
  (match getv o "command" with
   | some (.vstr s) => !(jsTokens s).isEmpty
   | _ => false) &&
  (!truthy? (getv o "verbose") || isFn (getv o "logger"))

/-! ## Scheduling event traces

The temporal claims speak about the order of dispatches and
settlements.  `SchedEv` records them: `dispatch i` is the call
`run(resolvedOpts)` for the `i`-th command, `settle i` the settlement
(resolution or rejection) of that command's promise, `batchResolve` the
settlement of the batch promise. -/

inductive SchedEv where
  | dispatch (i : Nat)
  | settle (i : Nat)
  | batchResolve
deriving DecidableEq

/-- The interleaving produced by the sequential generator loop for `k`
dispatched commands: each dispatch is immediately followed by the
settlement of the same command before the next dispatch (the loop body
suspends at `yield run(...)`). -/
def seqCore (k : Nat) : List SchedEv :=
  (List.range k).flatMap fun i => [SchedEv.dispatch i, SchedEv.settle i]

/-- The full sequential schedule of a batch: the dispatch/settle pairs of
the commands actually dispatched (the loop stops dispatching after a
rejection), then the settlement of the batch promise. -/
def seqEvents (g : Obj) (behs : Nat → ProcBeh) (cmds : List Obj) : List SchedEv :=
  seqCore (seqExec g behs cmds 0).1.length ++ [SchedEv.batchResolve]

/-- Stable insertion of index `i` into a list of indices sorted by
duration: `i` goes before the first index whose duration is at least
`durs i`, so equal durations settle in dispatch order. -/
def insertByDur (durs : Nat → Nat) (i : Nat) : List Nat → List Nat
  | [] => [i]
  | j :: rest => if durs i ≤ durs j then i :: j :: rest else j :: insertByDur durs i rest

/-- The order in which concurrently running processes finish, given each
one's duration: the indices sorted stably by duration.  The durations are
OS-chosen; the claims quantify over all of them. -/
def sortByDur (durs : Nat → Nat) : List Nat → List Nat
  | [] => []
  | i :: rest => insertByDur durs i (sortByDur durs rest)

/-- The schedule of the parallel branch for `n` commands: the synchronous
`commands.map` dispatches every command in input order before any process
can settle; the settlements then arrive in completion order; the batch
promise settles last, once `Promise.all` has seen every settlement. -/
def parEvents (n : Nat) (durs : Nat → Nat) : List SchedEv :=
  (List.range n).map SchedEv.dispatch ++
    (sortByDur durs (List.range n)).map SchedEv.settle ++ [SchedEv.batchResolve]

example :
    (runMultiple (.arr [.str "a", .obj [("command", .vstr "b")]]) [] "/w"
      (fun i => if i = 0 then ⟨[], .close 2⟩ else ⟨[], .procError 5⟩)).result = .ok [2, 5] := by
  decide

example :
    (runMultiple (.arr [.str "a", .str "b"]) [("mode", .vstr "parallel")] "/w"
      (fun i => ⟨[], .close (Int.ofNat i)⟩)).result = .ok [0, 1] := by
  decide

example : (runMultiple (.num 6) [] "/w" (fun _ => ⟨[], .close 0⟩)).result = .err .invalidInput := by
  decide

example :
    (runMultiple (.str "") [] "/w" (fun _ => ⟨[], .close 0⟩)).result =
      .err (.typeError "cannot read map of null") := by
  decide

example : parEvents 2 (fun i => 2 - i) =
    [.dispatch 0, .dispatch 1, .settle 1, .settle 0, .batchResolve] := by decide

/-! ## Lemmas about the object model -/

theorem getv_cons (p : String × Value) (o : Obj) (k : String) :
    getv (p :: o) k = if p.1 == k then some p.2 else getv o k := by
  by_cases h : p.1 == k <;> simp [getv, List.find?_cons, h]

/-- `Object.assign` lookup: the right layer wins when it has the key,
otherwise the left layer is consulted. -/
theorem getv_assign (a b : Obj) (k : String) :
    getv (assign a b) k = (getv b k).or (getv a k) := by
  induction b with
  | nil => simp [assign, getv, Option.or]
  | cons p b ih =>
    show getv (p :: (b ++ a)) k = _
    rw [getv_cons]
    by_cases h : p.1 == k
    · simp [h, getv_cons, Option.or]
    · simpa [h, getv_cons] using ih

/-- Keys outside the allow-list never survive the spawn projection. -/
theorem getv_spawnProjection_of_not_allowed (o : Obj) (k : String)
    (h : k ∉ spawnOptsAllowedKeys) :
    getv (spawnProjection o) k = none := by
  induction o with
  | nil => rfl
  | cons p o ih =>
    show getv (List.filter _ (p :: o)) k = none
    by_cases hp : p.1 ∈ spawnOptsAllowedKeys
    · have hpk : (p.1 == k) = false := by
        simp only [beq_eq_false_iff_ne]
        rintro rfl
        exact h hp
      rw [List.filter_cons_of_pos (by simpa using hp), getv_cons, hpk]
      · exact ih
    · rw [List.filter_cons_of_neg (by simpa using hp)]
      exact ih

/-- Keys inside the allow-list pass through the spawn projection
unchanged. -/
theorem getv_spawnProjection_of_allowed (o : Obj) (k : String)
    (h : k ∈ spawnOptsAllowedKeys) :
    getv (spawnProjection o) k = getv o k := by
  induction o with
  | nil => rfl
  | cons p o ih =>
    show getv (List.filter _ (p :: o)) k = getv (p :: o) k
    cases hpk : p.1 == k with
    | true =>
      have hp : p.1 ∈ spawnOptsAllowedKeys := by
        rw [show p.1 = k from eq_of_beq hpk]
        exact h
      rw [List.filter_cons_of_pos (by simpa using hp), getv_cons, getv_cons, hpk]
      rfl
    | false =>
      by_cases hp : p.1 ∈ spawnOptsAllowedKeys
      · rw [List.filter_cons_of_pos (by simpa using hp), getv_cons, getv_cons, hpk]
        exact ih
      · rw [List.filter_cons_of_neg (by simpa using hp), getv_cons, hpk]
        exact ih

/-! ## Lemmas about the spawner -/

/-- Unpacking `wfOpts`. -/
theorem wfOpts_elim {o : Obj} (h : wfOpts o = true) :
    (∃ s exe args, getv o "command" = some (.vstr s) ∧ jsTokens s = exe :: args) ∧
      (truthy? (getv o "verbose") = true → isFn (getv o "logger") = true) := by
  unfold wfOpts at h
  rw [Bool.and_eq_true] at h
  obtain ⟨h1, h2⟩ := h
  constructor
  · cases hc : getv o "command" with
    | none => rw [hc] at h1; simp at h1
    | some v =>
      cases v with
      | vstr s =>
        rw [hc] at h1
        cases ht : jsTokens s with
        | nil => simp [ht] at h1
        | cons exe args => exact ⟨s, exe, args, rfl, ht⟩
      | vbool b => rw [hc] at h1; simp at h1
      | vnum n => rw [hc] at h1; simp at h1
      | vfn tag => rw [hc] at h1; simp at h1
      | vnull => rw [hc] at h1; simp at h1
  · intro hv
    cases hl : isFn (getv o "logger")
    · rw [hv, hl] at h2
      simp at h2
    · rfl

/-- The full shape of a well-formed `run`: the optional verbose pre-log,
then the spawn call with the head token as executable, the remaining
tokens as arguments and the allow-list projection as options, then the
stream events, then the terminal event; the promise resolves with the
code the terminal event carries. -/
theorem run_wf (o : Obj) (beh : ProcBeh) {s : String} {exe : String} {args : List String}
    (hc : getv o "command" = some (.vstr s))
    (ht : jsTokens s = exe :: args)
    (hl : truthy? (getv o "verbose") = true → isFn (getv o "logger") = true) :
    run o beh =
      { events := (if truthy? (getv o "verbose") then [RunEv.log ("$ " ++ s)] else []) ++
          RunEv.spawned ⟨exe, args, spawnProjection o⟩ ::
            (chunkEvents o beh.chunks ++ doneEvents o beh.terminal),
        outcome := .ok (codeOf beh.terminal) } := by
  have hguard : (truthy? (getv o "verbose") && !isFn (getv o "logger")) = false := by
    cases hv : truthy? (getv o "verbose")
    · rfl
    · rw [hl hv]
      rfl
  simp only [run, hguard, Bool.false_eq_true, if_false, hc, ht, jsDisplay]

/-- A well-formed `run` never rejects: it resolves with the code of the
terminal event, whatever the process behaviour. -/
theorem run_ok_of_wf {o : Obj} (beh : ProcBeh) (h : wfOpts o = true) :
    (run o beh).outcome = .ok (codeOf beh.terminal) := by
  obtain ⟨⟨s, exe, args, hc, ht⟩, hl⟩ := wfOpts_elim h
  rw [run_wf o beh hc ht hl]

/-- Whenever `run`'s promise resolves, the value is the code of the
process's terminal event — `run` has no other resolution site. -/
theorem run_outcome_ok {o : Obj} {beh : ProcBeh} {v : Int}
    (h : (run o beh).outcome = .ok v) : v = codeOf beh.terminal := by
  simp only [run] at h
  by_cases hg : (truthy? (getv o "verbose") && !isFn (getv o "logger")) = true
  · rw [if_pos hg] at h
    simp at h
  · rw [if_neg hg] at h
    cases hc : getv o "command" with
    | none => rw [hc] at h; simp at h
    | some w =>
      cases w with
      | vstr s =>
        rw [hc] at h
        cases ht : jsTokens s with
        | nil => simp [ht] at h
        | cons exe args =>
          simp [ht] at h
          exact h.symm
      | vbool b => rw [hc] at h; simp at h
      | vnum n => rw [hc] at h; simp at h
      | vfn tag => rw [hc] at h; simp at h
      | vnull => rw [hc] at h; simp at h

/-- A command whose string tokenizes to nothing: the `null.map` throw of
src/index.js line 52 rejects the single-command promise with a
`TypeError`, and no process is spawned. -/
theorem run_empty_tokens {o : Obj} (beh : ProcBeh) {s : String}
    (hc : getv o "command" = some (.vstr s)) (ht : jsTokens s = [])
    (hg : (truthy? (getv o "verbose") && !isFn (getv o "logger")) = false) :
    (run o beh).outcome = .err (.typeError "cannot read map of null") ∧
      spawnsOf (run o beh) = [] := by
  have hshape : run o beh =
      { events := if truthy? (getv o "verbose") then [RunEv.log ("$ " ++ s)] else [],
        outcome := .err (.typeError "cannot read map of null") } := by
    simp only [run, hg, Bool.false_eq_true, if_false, hc, ht, jsDisplay]
  rw [hshape]
  refine ⟨rfl, ?_⟩
  cases truthy? (getv o "verbose") <;> simp [spawnsOf, evSpawn]

/-! ## Lemmas about the stream and completion events -/

theorem chunkEvents_cons (o : Obj) (ck : ChunkEv) (cks : List ChunkEv) :
    chunkEvents o (ck :: cks) =
      (match ck with
       | .out s =>
         (if truthy? (getv o "verbose") then [RunEv.log s] else []) ++
         (if isFn (getv o "onData") then [RunEv.onDataCall s] else [])
       | .err s =>
         (if truthy? (getv o "verbose") then [RunEv.log s] else []) ++
         (if isFn (getv o "onError") then [RunEv.onErrCall s] else [])) ++
      chunkEvents o cks := rfl

/-- With `verbose` truthy, the logger sees every chunk's text, in
delivery order. -/
theorem chunkEvents_logs_verbose (o : Obj) (hv : truthy? (getv o "verbose") = true)
    (cks : List ChunkEv) :
    (chunkEvents o cks).filterMap evLog = cks.map chunkText := by
  induction cks with
  | nil => rfl
  | cons ck rest ih =>
    cases ck with
    | out s =>
      rw [chunkEvents_cons]
      cases hd : isFn (getv o "onData") <;>
        simp [hv, hd, List.filterMap_append, ih, evLog, chunkText]
    | err s =>
      rw [chunkEvents_cons]
      cases he : isFn (getv o "onError") <;>
        simp [hv, he, List.filterMap_append, ih, evLog, chunkText]

/-- With `verbose` falsy, the stream listeners never touch the logger. -/
theorem chunkEvents_logs_quiet (o : Obj) (hv : truthy? (getv o "verbose") = false)
    (cks : List ChunkEv) :
    (chunkEvents o cks).filterMap evLog = [] := by
  induction cks with
  | nil => rfl
  | cons ck rest ih =>
    cases ck with
    | out s =>
      rw [chunkEvents_cons]
      cases hd : isFn (getv o "onData") <;>
        simp [hv, hd, List.filterMap_append, ih, evLog]
    | err s =>
      rw [chunkEvents_cons]
      cases he : isFn (getv o "onError") <;>
        simp [hv, he, List.filterMap_append, ih, evLog]

/-- When `onData` is callable it receives exactly the stdout chunk
texts, in delivery order, whatever `verbose` is. -/
theorem chunkEvents_data (o : Obj) (hd : isFn (getv o "onData") = true)
    (cks : List ChunkEv) :
    (chunkEvents o cks).filterMap evData = outTexts cks := by
  induction cks with
  | nil => rfl
  | cons ck rest ih =>
    cases ck with
    | out s =>
      rw [chunkEvents_cons]
      cases hv : truthy? (getv o "verbose") <;>
        simp [hv, hd, List.filterMap_append, ih, evData, outTexts]
    | err s =>
      rw [chunkEvents_cons]
      cases hv : truthy? (getv o "verbose") <;>
        cases he : isFn (getv o "onError") <;>
          simp [hv, hd, he, List.filterMap_append, ih, evData, outTexts]

/-- When `onError` is callable it receives exactly the stderr chunk
texts, in delivery order, whatever `verbose` is. -/
theorem chunkEvents_err (o : Obj) (he : isFn (getv o "onError") = true)
    (cks : List ChunkEv) :
    (chunkEvents o cks).filterMap evErr = errTexts cks := by
  induction cks with
  | nil => rfl
  | cons ck rest ih =>
    cases ck with
    | out s =>
      rw [chunkEvents_cons]
      cases hv : truthy? (getv o "verbose") <;>
        cases hd : isFn (getv o "onData") <;>
          simp [hv, hd, he, List.filterMap_append, ih, evErr, errTexts]
    | err s =>
      rw [chunkEvents_cons]
      cases hv : truthy? (getv o "verbose") <;>
        simp [hv, he, List.filterMap_append, ih, evErr, errTexts]

/-- The stream listeners never call `onDone`. -/
theorem chunkEvents_done (o : Obj) (cks : List ChunkEv) :
    (chunkEvents o cks).filterMap evDone = [] := by
  induction cks with
  | nil => rfl
  | cons ck rest ih =>
    cases ck with
    | out s =>
      rw [chunkEvents_cons]
      cases hv : truthy? (getv o "verbose") <;>
        cases hd : isFn (getv o "onData") <;>
          simp [hv, hd, List.filterMap_append, ih, evDone]
    | err s =>
      rw [chunkEvents_cons]
      cases hv : truthy? (getv o "verbose") <;>
        cases he : isFn (getv o "onError") <;>
          simp [hv, he, List.filterMap_append, ih, evDone]

/-- The stream listeners never spawn. -/
theorem chunkEvents_spawn (o : Obj) (cks : List ChunkEv) :
    (chunkEvents o cks).filterMap evSpawn = [] := by
  induction cks with
  | nil => rfl
  | cons ck rest ih =>
    cases ck with
    | out s =>
      rw [chunkEvents_cons]
      cases hv : truthy? (getv o "verbose") <;>
        cases hd : isFn (getv o "onData") <;>
          simp [hv, hd, List.filterMap_append, ih, evSpawn]
    | err s =>
      rw [chunkEvents_cons]
      cases hv : truthy? (getv o "verbose") <;>
        cases he : isFn (getv o "onError") <;>
          simp [hv, he, List.filterMap_append, ih, evSpawn]

theorem doneEvents_done (o : Obj) (t : Terminal) (hd : isFn (getv o "onDone") = true) :
    (doneEvents o t).filterMap evDone = [(codeOf t, erroredOf t)] := by
  simp [doneEvents, hd, evDone]

theorem doneEvents_log (o : Obj) (t : Terminal) :
    (doneEvents o t).filterMap evLog = [] := by
  cases hd : isFn (getv o "onDone") <;> simp [doneEvents, hd, evLog]

theorem doneEvents_data (o : Obj) (t : Terminal) :
    (doneEvents o t).filterMap evData = [] := by
  cases hd : isFn (getv o "onDone") <;> simp [doneEvents, hd, evData]

theorem doneEvents_err (o : Obj) (t : Terminal) :
    (doneEvents o t).filterMap evErr = [] := by
  cases hd : isFn (getv o "onDone") <;> simp [doneEvents, hd, evErr]

theorem doneEvents_spawn (o : Obj) (t : Terminal) :
    (doneEvents o t).filterMap evSpawn = [] := by
  cases hd : isFn (getv o "onDone") <;> simp [doneEvents, hd, evSpawn]

/-! ## Lemmas about the executors -/

theorem seqExec_wf (g : Obj) (behs : Nat → ProcBeh) :
    ∀ (cmds : List Obj) (i : Nat), (∀ c ∈ cmds, wfOpts (assign g c) = true) →
      seqExec g behs cmds i =
        ((cmds.enumFrom i).map fun p => run (assign g p.2) (behs p.1),
         .ok ((List.range' i cmds.length).map fun j => codeOf (behs j).terminal)) := by
  intro cmds
  induction cmds with
  | nil => intro i h; rfl
  | cons c rest ih =>
    intro i h
    have hr0 := run_ok_of_wf (o := assign g c) (behs i) (h c (List.mem_cons_self c rest))
    have hrest := ih (i + 1) fun d hd => h d (List.mem_cons_of_mem c hd)
    simp only [seqExec, hr0, hrest, List.enumFrom, List.range', List.map_cons, List.length_cons]

theorem seqExec_res_of_ok (g : Obj) (behs : Nat → ProcBeh) :
    ∀ (cmds : List Obj) (i : Nat) (vs : List Int),
      (seqExec g behs cmds i).2 = .ok vs →
      vs = (List.range' i cmds.length).map fun j => codeOf (behs j).terminal := by
  intro cmds
  induction cmds with
  | nil =>
    intro i vs h
    simpa [seqExec] using h.symm
  | cons c rest ih =>
    intro i vs h
    simp only [seqExec] at h
    cases ho : (run (assign g c) (behs i)).outcome with
    | err e => rw [ho] at h; simp at h
    | ok v =>
      rw [ho] at h
      cases hrest : seqExec g behs rest (i + 1) with
      | mk ts res =>
        rw [hrest] at h
        cases res with
        | err e => simp at h
        | ok vs' =>
          simp at h
          have hv := run_outcome_ok ho
          have := ih (i + 1) vs' (by rw [hrest])
          simp [List.range', ← h, hv, this]

theorem collectAll_wf (g : Obj) (behs : Nat → ProcBeh) :
    ∀ (cmds : List Obj) (i : Nat), (∀ c ∈ cmds, wfOpts (assign g c) = true) →
      collectAll ((cmds.enumFrom i).map fun p => run (assign g p.2) (behs p.1)) =
        .ok ((List.range' i cmds.length).map fun j => codeOf (behs j).terminal) := by
  intro cmds
  induction cmds with
  | nil => intro i h; rfl
  | cons c rest ih =>
    intro i h
    have hr := run_ok_of_wf (o := assign g c) (behs i) (h c (List.mem_cons_self c rest))
    have hrest := ih (i + 1) fun d hd => h d (List.mem_cons_of_mem c hd)
    simp only [List.enumFrom, List.map_cons, collectAll, hr, hrest, List.range',
      List.length_cons]

theorem parExec_wf (g : Obj) (behs : Nat → ProcBeh) (cmds : List Obj)
    (h : ∀ c ∈ cmds, wfOpts (assign g c) = true) :
    (parExec g behs cmds).2 =
      .ok ((List.range cmds.length).map fun j => codeOf (behs j).terminal) := by
  show collectAll ((cmds.enumFrom 0).map fun p => run (assign g p.2) (behs p.1)) = _
  rw [collectAll_wf g behs cmds 0 h, List.range_eq_range']

/-! ## Lemmas about the schedules -/

theorem seqCore_succ (k : Nat) :
    seqCore (k + 1) = seqCore k ++ [SchedEv.dispatch k, SchedEv.settle k] := by
  unfold seqCore
  rw [List.range_succ, List.flatMap_append]
  rfl

/-- Two consecutive dispatch/settle pairs sit contiguously in the
sequential schedule. -/
theorem seqCore_decomp {j k : Nat} (h : j + 1 < k) :
    ∃ r, seqCore k = seqCore j ++
      SchedEv.dispatch j :: SchedEv.settle j ::
        SchedEv.dispatch (j + 1) :: SchedEv.settle (j + 1) :: r := by
  induction k with
  | zero => omega
  | succ m ih =>
    rcases Nat.lt_succ_iff_lt_or_eq.mp h with h' | h'
    · obtain ⟨r, hr⟩ := ih h'
      refine ⟨r ++ [SchedEv.dispatch m, SchedEv.settle m], ?_⟩
      rw [seqCore_succ, hr]
      simp
    · have hm : m = j + 1 := h'.symm
      subst hm
      refine ⟨[], ?_⟩
      rw [seqCore_succ, seqCore_succ]
      simp

theorem mem_seqCore {e : SchedEv} {k : Nat} (h : e ∈ seqCore k) :
    ∃ j, j < k ∧ (e = SchedEv.dispatch j ∨ e = SchedEv.settle j) := by
  rw [seqCore, List.mem_flatMap] at h
  obtain ⟨j, hj, he⟩ := h
  refine ⟨j, List.mem_range.mp hj, ?_⟩
  simpa using he

theorem count_seqCore_dispatch (k m : Nat) :
    (seqCore k).count (SchedEv.dispatch m) = if m < k then 1 else 0 := by
  induction k with
  | zero => simp [seqCore]
  | succ n ih =>
    have hpair : [SchedEv.dispatch n, SchedEv.settle n].count (SchedEv.dispatch m) =
        if m = n then 1 else 0 := by
      by_cases h : m = n <;> simp [h, List.count_cons]
    rw [seqCore_succ, List.count_append, ih, hpair]
    by_cases h1 : m < n
    · simp [h1, Nat.lt_succ_of_lt h1, show ¬m = n by omega]
    · by_cases h2 : m = n
      · simp [h1, h2]
      · simp [h1, h2, show ¬m < n + 1 by omega]

theorem count_seqCore_settle (k m : Nat) :
    (seqCore k).count (SchedEv.settle m) = if m < k then 1 else 0 := by
  induction k with
  | zero => simp [seqCore]
  | succ n ih =>
    have hpair : [SchedEv.dispatch n, SchedEv.settle n].count (SchedEv.settle m) =
        if m = n then 1 else 0 := by
      by_cases h : m = n <;> simp [h, List.count_cons]
    rw [seqCore_succ, List.count_append, ih, hpair]
    by_cases h1 : m < n
    · simp [h1, Nat.lt_succ_of_lt h1, show ¬m = n by omega]
    · by_cases h2 : m = n
      · simp [h1, h2]
      · simp [h1, h2, show ¬m < n + 1 by omega]

theorem mem_insertByDur (durs : Nat → Nat) (i x : Nat) (l : List Nat) :
    x ∈ insertByDur durs i l ↔ x = i ∨ x ∈ l := by
  induction l with
  | nil => simp [insertByDur]
  | cons j rest ih =>
    by_cases h : durs i ≤ durs j
    · simp [insertByDur, h]
    · simp [insertByDur, h, ih]
      tauto

theorem mem_sortByDur (durs : Nat → Nat) (x : Nat) (l : List Nat) :
    x ∈ sortByDur durs l ↔ x ∈ l := by
  induction l with
  | nil => simp [sortByDur]
  | cons j rest ih => simp [sortByDur, mem_insertByDur, ih]

/-- In the parallel schedule the `j`-th event is the dispatch of the
`j`-th command: dispatches happen in input order before anything
settles. -/
theorem parEvents_dispatch (n : Nat) (durs : Nat → Nat) {j : Nat} (h : j < n) :
    (parEvents n durs)[j]? = some (SchedEv.dispatch j) := by
  have h1 : j < (((List.range n).map SchedEv.dispatch) ++
      (sortByDur durs (List.range n)).map SchedEv.settle).length := by
    simp only [List.length_append, List.length_map, List.length_range]
    omega
  have h2 : j < ((List.range n).map SchedEv.dispatch).length := by
    simpa using h
  rw [parEvents, List.getElem?_append_left h1, List.getElem?_append_left h2,
    List.getElem?_map, List.getElem?_range h]
  rfl

/-- Every command of the parallel batch settles strictly before the
batch promise does. -/
theorem parEvents_settle_decomp (n : Nat) (durs : Nat → Nat) {i : Nat} (h : i < n) :
    ∃ l1 l2, parEvents n durs = l1 ++ SchedEv.settle i :: (l2 ++ [SchedEv.batchResolve]) := by
  have hmem : i ∈ sortByDur durs (List.range n) :=
    (mem_sortByDur durs i (List.range n)).mpr (List.mem_range.mpr h)
  obtain ⟨s, t, hst⟩ := List.append_of_mem hmem
  refine ⟨(List.range n).map SchedEv.dispatch ++ s.map SchedEv.settle, t.map SchedEv.settle, ?_⟩
  rw [parEvents, hst]
  simp

/-! ## Lemmas about tokenization -/

/-- A successful `qrest` match consumes between one character and the
whole input, and the last character it consumes is the closing quote. -/
theorem qrest_spec (t : List Char) (n : Nat) (h : qrest t = some n) :
    1 ≤ n ∧ n ≤ t.length ∧ t[n - 1]? = some '"' := by
  induction t using qrest.induct generalizing n with
  | case1 => simp [qrest] at h
  | case2 t =>
    simp [qrest] at h
    subst h
    simp
  | case3 t m hm ih =>
    rw [qrest] at h
    rw [hm] at h
    simp at h
    subst h
    obtain ⟨h1, h2, h3⟩ := ih m hm
    refine ⟨by omega, by simp; omega, ?_⟩
    show ('\\' :: '"' :: t)[m + 2 - 1]? = some '"'
    have he : m + 2 - 1 = (m - 1) + 2 := by omega
    rw [he]
    simpa using h3
  | case4 t hm ih =>
    rw [qrest] at h
    rw [hm] at h
    simp at h
    subst h
    simp
  | case5 c t h1 h2 ih =>
    rw [qrest] at h
    case x_1 => exact h1
    case x_2 => exact h2
    cases hm : qrest t with
    | none => rw [hm] at h; simp at h
    | some m =>
      rw [hm] at h
      simp at h
      subst h
      obtain ⟨g1, g2, g3⟩ := ih m hm
      refine ⟨by omega, by simp; omega, ?_⟩
      show (c :: t)[m + 1 - 1]? = some '"'
      have he : m + 1 - 1 = (m - 1) + 1 := by omega
      rw [he]
      simpa using g3

/-- A successful `q1` match consumes at least two characters (at least
one inner character and the closing quote), at most the whole input, and
ends on the closing quote. -/
theorem q1_spec (t : List Char) (n : Nat) (h : q1 t = some n) :
    2 ≤ n ∧ n ≤ t.length ∧ t[n - 1]? = some '"' := by
  induction t using qrest.induct generalizing n with
  | case1 => simp [q1] at h
  | case2 t => simp [q1] at h
  | case3 t m hm ih =>
    rw [q1] at h
    rw [hm] at h
    simp at h
    subst h
    obtain ⟨h1, h2, h3⟩ := qrest_spec t m hm
    refine ⟨by omega, by simp; omega, ?_⟩
    show ('\\' :: '"' :: t)[m + 2 - 1]? = some '"'
    have he : m + 2 - 1 = (m - 1) + 2 := by omega
    rw [he]
    simpa using h3
  | case4 t hm ih =>
    rw [q1] at h
    rw [hm] at h
    simp at h
    subst h
    simp
  | case5 c t h1 h2 ih =>
    rw [q1] at h
    case x_1 => exact h1
    case x_2 => exact h2
    cases hm : qrest t with
    | none => rw [hm] at h; simp at h
    | some m =>
      rw [hm] at h
      simp at h
      subst h
      obtain ⟨g1, g2, g3⟩ := qrest_spec t m hm
      refine ⟨by omega, by simp; omega, ?_⟩
      show (c :: t)[m + 1 - 1]? = some '"'
      have he : m + 1 - 1 = (m - 1) + 1 := by omega
      rw [he]
      simpa using g3

/-- The fuel argument of the scanner is irrelevant as soon as it covers
the input length (every scan step consumes at least one character). -/
theorem jsRawTokensF_fuel :
    ∀ (f1 f2 : Nat) (s : List Char), s.length ≤ f1 → s.length ≤ f2 →
      jsRawTokensF f1 s = jsRawTokensF f2 s := by
  intro f1
  induction f1 with
  | zero =>
    intro f2 s h1 h2
    have : s = [] := List.length_eq_zero.mp (Nat.le_zero.mp h1)
    subst this
    cases f2 <;> rfl
  | succ a ih =>
    intro f2 s h1 h2
    cases s with
    | nil => cases f2 <;> rfl
    | cons c t =>
      cases f2 with
      | zero => simp at h2
      | succ b =>
        simp only [List.length_cons, Nat.succ_le_succ_iff] at h1 h2
        show jsRawTokensF (a + 1) (c :: t) = jsRawTokensF (b + 1) (c :: t)
        rw [jsRawTokensF, jsRawTokensF]
        by_cases hc : c = '"'
        · rw [if_pos hc, if_pos hc]
          cases hq : q1 t with
          | some n =>
            have hlen : (t.drop n).length ≤ t.length := by
              simp
            exact congrArg (fun x => ('"' :: t.take n) :: x)
              (ih b (t.drop n) (le_trans hlen h1) (le_trans hlen h2))
          | none => exact ih b t h1 h2
        · rw [if_neg hc, if_neg hc]
          by_cases hs : jsSpace c
          · rw [if_pos hs, if_pos hs]
            exact ih b t h1 h2
          · rw [if_neg hs, if_neg hs]
            have hlen : (t.dropWhile nonDelim).length ≤ t.length :=
              (List.dropWhile_sublist nonDelim).length_le
            rw [ih b (t.dropWhile nonDelim) (le_trans hlen h1) (le_trans hlen h2)]

/-- The scan step at a non-quote, non-whitespace character: the token
produced is exactly the maximal (`takeWhile`) run of non-quote,
non-whitespace characters starting there, and scanning resumes right
after it. -/
theorem jsRawTokensL_run {c : Char} (t : List Char) (h : nonDelim c = true) :
    jsRawTokensL (c :: t) =
      (c :: t).takeWhile nonDelim :: jsRawTokensL ((c :: t).dropWhile nonDelim) := by
  have hc : ¬c = '"' := by
    intro hcq
    rw [nonDelim, hcq] at h
    simp at h
  have hs : ¬jsSpace c = true := by
    intro hsp
    rw [nonDelim, hsp] at h
    simp at h
  rw [List.takeWhile_cons_of_pos h, List.dropWhile_cons_of_pos h]
  show jsRawTokensF (t.length + 1) (c :: t) = _
  rw [jsRawTokensF, if_neg hc, if_neg hs]
  rw [jsRawTokensF_fuel t.length (t.dropWhile nonDelim).length (t.dropWhile nonDelim)
    ((List.dropWhile_sublist nonDelim).length_le) (le_refl _)]
  rfl

/-- Shape of every raw token the scanner produces: it is nonempty, and it
is either a run of non-quote, non-whitespace characters (first regex
alternative) or a double-quoted span of length at least three whose first
and last characters are the wrapping quotes (second alternative). -/
theorem jsRawTokensF_shape :
    ∀ (fuel : Nat) (s : List Char) (tok : List Char), tok ∈ jsRawTokensF fuel s →
      tok ≠ [] ∧ ((∀ c ∈ tok, nonDelim c = true) ∨
        (tok.head? = some '"' ∧ tok.getLast? = some '"' ∧ 3 ≤ tok.length)) := by
  intro fuel
  induction fuel with
  | zero => intro s tok h; simp [jsRawTokensF] at h
  | succ f ih =>
    intro s tok h
    cases s with
    | nil => simp [jsRawTokensF] at h
    | cons c t =>
      rw [jsRawTokensF] at h
      by_cases hc : c = '"'
      · rw [if_pos hc] at h
        cases hq : q1 t with
        | some n =>
          rw [hq] at h
          rcases List.mem_cons.mp h with htok | htok
          · subst htok
            obtain ⟨h2, hlen, hlast⟩ := q1_spec t n hq
            have hlen' : (t.take n).length = n := by
              rw [List.length_take]
              omega
            refine ⟨by simp, Or.inr ⟨rfl, ?_, ?_⟩⟩
            · rw [List.getLast?_eq_getElem?]
              have hne : ('"' :: t.take n).length - 1 = (n - 1) + 1 := by
                simp [hlen']
                omega
              rw [hne, List.getElem?_cons_succ]
              rw [List.getElem?_take]
              simp only [show n - 1 < n by omega, if_true]
              exact hlast
            · simp [hlen']
              omega
          · exact ih (t.drop n) tok htok
        | none =>
          rw [hq] at h
          exact ih t tok h
      · rw [if_neg hc] at h
        by_cases hs : jsSpace c
        · rw [if_pos hs] at h
          exact ih t tok h
        · rw [if_neg hs] at h
          rcases List.mem_cons.mp h with htok | htok
          · subst htok
            refine ⟨by simp, Or.inl ?_⟩
            intro d hd
            rcases List.mem_cons.mp hd with hd | hd
            · subst hd
              rw [nonDelim]
              simp [hc, hs]
            · exact List.mem_takeWhile_imp hd
          · exact ih (t.dropWhile nonDelim) tok htok

/-! ## Further spawner lemmas -/

/-- Either `run` spawns nothing, or it spawns exactly once, and then the
options handed to the OS are the allow-list projection. -/
theorem spawnsOf_run (o : Obj) (beh : ProcBeh) :
    spawnsOf (run o beh) = [] ∨
      ∃ exe args, spawnsOf (run o beh) = [⟨exe, args, spawnProjection o⟩] := by
  have hpre : ∀ s : String,
      (if truthy? (getv o "verbose") then [RunEv.log s] else [] : List RunEv).filterMap
        evSpawn = [] := by
    intro s
    cases truthy? (getv o "verbose") <;> simp [evSpawn]
  by_cases hg : (truthy? (getv o "verbose") && !isFn (getv o "logger")) = true
  · left
    simp only [run, spawnsOf, hg, if_true]
    rfl
  · cases hc : getv o "command" with
    | none =>
      left
      simp only [run, spawnsOf, if_neg hg, hc]
      exact hpre _
    | some w =>
      cases w with
      | vstr s =>
        cases ht : jsTokens s with
        | nil =>
          left
          simp only [run, spawnsOf, if_neg hg, hc, ht]
          exact hpre _
        | cons exe args =>
          right
          refine ⟨exe, args, ?_⟩
          simp only [run, spawnsOf, if_neg hg, hc, ht, List.filterMap_append,
            List.filterMap_cons, hpre, chunkEvents_spawn, doneEvents_spawn, evSpawn]
          rfl
      | vbool b =>
        left
        simp only [run, spawnsOf, if_neg hg, hc]
        exact hpre _
      | vnum n =>
        left
        simp only [run, spawnsOf, if_neg hg, hc]
        exact hpre _
      | vfn tag =>
        left
        simp only [run, spawnsOf, if_neg hg, hc]
        exact hpre _
      | vnull =>
        left
        simp only [run, spawnsOf, if_neg hg, hc]
        exact hpre _

/-! ## The claims -/

/-- Claim C4 — the effective options of every command are the three-layer
overlay: defaults (cwd = the `process.cwd()` snapshot, verbose = false,
mode = sequential, logger = the default logger) overridden by the
caller's global options, overridden by the command's own fields, the
command winning every conflict; the overlay is a fresh object computed
per command, so with global cwd `/tmp` and one command carrying cwd
`/var`, that command resolves to `/var` while a sibling without its own
cwd resolves to `/tmp`. -/
theorem claim_C4 (procCwd : String) (gopts cmd : Obj) (k : String) :
    getv (resolveOpts procCwd gopts cmd) k =
      (getv cmd k).or ((getv gopts k).or (getv (defaultOpts procCwd) k)) ∧
    getv (defaultOpts procCwd) "cwd" = some (.vstr procCwd) ∧
    getv (defaultOpts procCwd) "verbose" = some (.vbool false) ∧
    getv (defaultOpts procCwd) "mode" = some (.vstr "sequential") ∧
    getv (defaultOpts procCwd) "logger" = some (.vfn "console.log") ∧
    getv (resolveOpts procCwd [("cwd", .vstr "/tmp")]
      [("command", .vstr "a"), ("cwd", .vstr "/var")]) "cwd" = some (.vstr "/var") ∧
    getv (resolveOpts procCwd [("cwd", .vstr "/tmp")] [("command", .vstr "b")]) "cwd" =
      some (.vstr "/tmp") := by
  refine ⟨?_, rfl, rfl, rfl, rfl, rfl, rfl⟩
  rw [resolveOpts, globalOptsOf, getv_assign, getv_assign]

/-- Claim C5 — for every spawned command, on normal closure `run` invokes
`onDone` (when present) with the exit code and the errored flag reading
false, and on an `error` event with the error code and flag true; in both
cases the `onDone` call is the last observable action and the promise
then resolves with that code — the single-command operation never
rejects. -/
theorem claim_C5 (options : Obj) (beh : ProcBeh)
    (hwf : wfOpts options = true) (hd : isFn (getv options "onDone") = true) :
    (run options beh).outcome = .ok (codeOf beh.terminal) ∧
    doneCallsOf (run options beh) = [(codeOf beh.terminal, erroredOf beh.terminal)] ∧
    (run options beh).events.getLast? =
      some (RunEv.onDoneCall (codeOf beh.terminal) (erroredOf beh.terminal)) ∧
    (∀ c, beh.terminal = .close c →
      codeOf beh.terminal = c ∧ erroredOf beh.terminal = false) ∧
    (∀ c, beh.terminal = .procError c →
      codeOf beh.terminal = c ∧ erroredOf beh.terminal = true) := by
  obtain ⟨⟨s, exe, args, hc, ht⟩, hl⟩ := wfOpts_elim hwf
  have hr := run_wf options beh hc ht hl
  have hpre : ∀ s' : String,
      (if truthy? (getv options "verbose") then [RunEv.log s'] else [] : List RunEv).filterMap
        evDone = [] := by
    intro s'
    cases truthy? (getv options "verbose") <;> simp [evDone]
  refine ⟨by rw [hr], ?_, ?_, ?_, ?_⟩
  · rw [doneCallsOf, hr]
    simp only [List.filterMap_append, List.filterMap_cons, hpre, chunkEvents_done,
      doneEvents_done options beh.terminal hd, evDone]
    rfl
  · rw [hr]
    have hdone : doneEvents options beh.terminal =
        [RunEv.onDoneCall (codeOf beh.terminal) (erroredOf beh.terminal)] := by
      simp [doneEvents, hd]
    show ((if truthy? (getv options "verbose") then [RunEv.log ("$ " ++ s)] else []) ++
        RunEv.spawned ⟨exe, args, spawnProjection options⟩ ::
          (chunkEvents options beh.chunks ++ doneEvents options beh.terminal)).getLast? = _
    rw [hdone, show (if truthy? (getv options "verbose") then [RunEv.log ("$ " ++ s)]
        else []) ++ RunEv.spawned ⟨exe, args, spawnProjection options⟩ ::
          (chunkEvents options beh.chunks ++
            [RunEv.onDoneCall (codeOf beh.terminal) (erroredOf beh.terminal)]) =
      ((if truthy? (getv options "verbose") then [RunEv.log ("$ " ++ s)] else []) ++
        RunEv.spawned ⟨exe, args, spawnProjection options⟩ ::
          chunkEvents options beh.chunks) ++
        [RunEv.onDoneCall (codeOf beh.terminal) (erroredOf beh.terminal)] by simp]
    exact List.getLast?_concat _
  · intro c hcl
    rw [hcl]
    exact ⟨rfl, rfl⟩
  · intro c hcl
    rw [hcl]
    exact ⟨rfl, rfl⟩

/-- Witness for claim C5, at a concrete option set and both terminal
kinds: exit code 7 on `close` (errored false) and code 3 on `error`
(errored true). -/
theorem claim_C5_wit :
    (run [("command", .vstr "ls"), ("onDone", .vfn "cb")] ⟨[], .close 7⟩).outcome =
        .ok 7 ∧
      doneCallsOf (run [("command", .vstr "ls"), ("onDone", .vfn "cb")] ⟨[], .close 7⟩) =
        [(7, false)] ∧
      doneCallsOf
          (run [("command", .vstr "ls"), ("onDone", .vfn "cb")] ⟨[], .procError 3⟩) =
        [(3, true)] := by
  have h1 := claim_C5 [("command", .vstr "ls"), ("onDone", .vfn "cb")] ⟨[], .close 7⟩
    (by decide) (by decide)
  have h2 := claim_C5 [("command", .vstr "ls"), ("onDone", .vfn "cb")] ⟨[], .procError 3⟩
    (by decide) (by decide)
  exact ⟨h1.1, h1.2.1, h2.2.1⟩

/-- Claim C8 — only the allow-listed keys (cwd, env, stdio, detached,
uid, gid, shell) survive into the object handed to the OS spawn
primitive; every other field, in particular the callbacks and the
orchestration-only fields, is never forwarded, and every spawn `run`
performs uses exactly this projection. -/
theorem claim_C8 (o : Obj) (beh : ProcBeh) :
    (∀ k : String, k ∉ spawnOptsAllowedKeys → getv (spawnProjection o) k = none) ∧
    (∀ k ∈ spawnOptsAllowedKeys, getv (spawnProjection o) k = getv o k) ∧
    (∀ k ∈ (["onData", "onOutput", "onError", "onErrorOutput", "onDone", "onComplete",
        "verbose", "logger", "mode", "command"] : List String),
      getv (spawnProjection o) k = none) ∧
    (∀ sc ∈ spawnsOf (run o beh), sc.opts = spawnProjection o) := by
  refine ⟨fun k hk => getv_spawnProjection_of_not_allowed o k hk,
    fun k hk => getv_spawnProjection_of_allowed o k hk, ?_, ?_⟩
  · intro k hk
    fin_cases hk <;> exact getv_spawnProjection_of_not_allowed o _ (by decide)
  · intro sc hsc
    rcases spawnsOf_run o beh with h | ⟨exe, args, h⟩
    · rw [h] at hsc
      simp at hsc
    · rw [h] at hsc
      simp at hsc
      rw [hsc]

/-- Witness for claim C8 at a concrete option object holding both
allowed and orchestration-only keys. -/
theorem claim_C8_wit :
    getv (spawnProjection [("cwd", .vstr "/a"), ("onData", .vfn "cb"),
      ("command", .vstr "x"), ("env", .vnull)]) "onData" = none ∧
    getv (spawnProjection [("cwd", .vstr "/a"), ("onData", .vfn "cb"),
      ("command", .vstr "x"), ("env", .vnull)]) "cwd" = some (.vstr "/a") := by
  have h := claim_C8 [("cwd", .vstr "/a"), ("onData", .vfn "cb"),
    ("command", .vstr "x"), ("env", .vnull)] ⟨[], .close 0⟩
  exact ⟨h.1 "onData" (by decide), h.2.1 "cwd" (by decide)⟩

/-- Claim C10 — mode selection is exact string comparison with
`'parallel'`: every other `mode` value (the misspelling `'Parallel'`, an
arbitrary value, an absent field) silently selects sequential
scheduling, and an unrecognized mode raises no error — with well-formed
commands the batch still resolves with every exit code. -/
theorem claim_C10 (procCwd : String) (v : Value) (hv : v ≠ .vstr "parallel") :
    chosenMode procCwd [("mode", v)] = .sequential ∧
    chosenMode procCwd [] = .sequential ∧
    chosenMode procCwd [("mode", .vstr "Parallel")] = .sequential ∧
    (∀ (input : JsInput) (options : Obj) (behs : Nat → ProcBeh) (cmds : List Obj),
      normalizeInput input = some cmds → chosenMode procCwd options = .sequential →
      (runMultiple input options procCwd behs).mode = some .sequential) ∧
    (∀ (input : JsInput) (options : Obj) (behs : Nat → ProcBeh) (cmds : List Obj),
      normalizeInput input = some cmds →
      (∀ c ∈ cmds, wfOpts (assign (globalOptsOf procCwd options) c) = true) →
      chosenMode procCwd options = .sequential →
      (runMultiple input options procCwd behs).result =
        .ok ((List.range cmds.length).map fun j => codeOf (behs j).terminal)) := by
  refine ⟨?_, rfl, rfl, ?_, ?_⟩
  · have h1 : getv (globalOptsOf procCwd [("mode", v)]) "mode" = some v := rfl
    rw [chosenMode, h1, if_neg (by simpa using hv)]
  · intro input options behs cmds hnorm hmode
    simp only [runMultiple, hnorm, hmode]
  · intro input options behs cmds hnorm hwf hmode
    have hseq := seqExec_wf (globalOptsOf procCwd options) behs cmds 0 hwf
    simp only [runMultiple, hnorm, hmode, hseq]
    rw [List.range_eq_range']

/-- Witness for claim C10: the misspelling `'Parallel'` runs the batch
sequentially and the batch still resolves. -/
theorem claim_C10_wit :
    chosenMode "/w" [("mode", .vstr "Parallel")] = .sequential ∧
    (runMultiple (.str "ls") [("mode", .vstr "Parallel")] "/w"
        (fun _ => ⟨[], .close 0⟩)).result = .ok [0] := by
  have h := claim_C10 "/w" (.vstr "Parallel") (by decide)
  refine ⟨h.2.2.1, ?_⟩
  have h5 := h.2.2.2.2 (.str "ls") [("mode", .vstr "Parallel")] (fun _ => ⟨[], .close 0⟩)
    [[("command", .vstr "ls")]] (by decide) (by decide) (by decide)
  simpa using h5

/-- Claim C9 (amended) — with a well-formed command and a callable
logger: when `verbose` is truthy the logger is invoked exactly once
before the spawn call with the command line prefixed by `'$ '` (not the
bare command line), then once per output chunk, stdout and stderr alike,
with the chunk's text, in addition to the ordinary `onData`/`onError`
deliveries; when `verbose` is falsy the logger is never invoked. -/
theorem claim_C9 (options : Obj) (beh : ProcBeh) (s : String) (exe : String)
    (args : List String) (hc : getv options "command" = some (.vstr s))
    (ht : jsTokens s = exe :: args) (hl : isFn (getv options "logger") = true) :
    (truthy? (getv options "verbose") = true →
      logsOf (run options beh) = ("$ " ++ s) :: beh.chunks.map chunkText ∧
      (run options beh).events[0]? = some (RunEv.log ("$ " ++ s)) ∧
      (run options beh).events[1]? =
        some (RunEv.spawned ⟨exe, args, spawnProjection options⟩) ∧
      (isFn (getv options "onData") = true →
        dataCallsOf (run options beh) = outTexts beh.chunks) ∧
      (isFn (getv options "onError") = true →
        errCallsOf (run options beh) = errTexts beh.chunks)) ∧
    (truthy? (getv options "verbose") = false → logsOf (run options beh) = []) := by
  have hr := run_wf options beh hc ht fun _ => hl
  constructor
  · intro hv
    refine ⟨?_, ?_, ?_, ?_, ?_⟩
    · rw [logsOf, hr]
      simp only [hv, if_true, List.filterMap_append, List.filterMap_cons,
        chunkEvents_logs_verbose options hv, doneEvents_log, evLog]
      simp
    · rw [hr]
      simp [hv]
    · rw [hr]
      simp [hv]
    · intro hd
      rw [dataCallsOf, hr]
      cases truthy? (getv options "verbose") <;>
        simp [List.filterMap_append, List.filterMap_cons,
          chunkEvents_data options hd, doneEvents_data, evData]
    · intro he
      rw [errCallsOf, hr]
      cases truthy? (getv options "verbose") <;>
        simp [List.filterMap_append, List.filterMap_cons,
          chunkEvents_err options he, doneEvents_err, evErr]
  · intro hv
    rw [logsOf, hr]
    simp only [hv, Bool.false_eq_true, if_false, List.nil_append, List.filterMap_cons,
      List.filterMap_append, chunkEvents_logs_quiet options hv, doneEvents_log, evLog]

/-- Counterexample to claim C9 as stated: the pre-spawn logger argument
is the command line prefixed by `'$ '` (src/index.js line 29), not the
literal command line. -/
theorem claim_C9_cex :
    logsOf (run [("command", .vstr "echo hi"), ("verbose", .vbool true),
      ("logger", .vfn "log")] ⟨[], .close 0⟩) = ["$ echo hi"] ∧
    ("$ echo hi" : String) ≠ "echo hi" := by decide

/-- Witness for claim C9 at a concrete verbose command with one stdout
and one stderr chunk. -/
theorem claim_C9_wit :
    logsOf (run [("command", .vstr "echo hi"), ("verbose", .vbool true),
        ("logger", .vfn "log"), ("onData", .vfn "cb")]
      ⟨[.out "a", .err "b"], .close 0⟩) = ["$ echo hi", "a", "b"] ∧
    dataCallsOf (run [("command", .vstr "echo hi"), ("verbose", .vbool true),
        ("logger", .vfn "log"), ("onData", .vfn "cb")]
      ⟨[.out "a", .err "b"], .close 0⟩) = ["a"] ∧
    logsOf (run [("command", .vstr "echo hi"), ("logger", .vfn "log")]
      ⟨[.out "a"], .close 0⟩) = [] := by
  have h1 := claim_C9 [("command", .vstr "echo hi"), ("verbose", .vbool true),
      ("logger", .vfn "log"), ("onData", .vfn "cb")]
    ⟨[.out "a", .err "b"], .close 0⟩ "echo hi" "echo" ["hi"]
    (by decide) (by decide) (by decide)
  have h2 := claim_C9 [("command", .vstr "echo hi"), ("logger", .vfn "log")]
    ⟨[.out "a"], .close 0⟩ "echo hi" "echo" ["hi"] (by decide) (by decide) (by decide)
  exact ⟨(h1.1 (by decide)).1, (h1.1 (by decide)).2.2.2.1 (by decide), h2.2 (by decide)⟩

/-- Claim C6 — tokenization: every raw regex match is either a maximal
(`takeWhile`) run of non-quote, non-whitespace characters or a
double-quoted span (whose interior may carry escaped quotes); wrapping
quotes are stripped from the matched text; and `run` uses the first
token as the executable and the rest as the argument list. -/
theorem claim_C6 (s : String) :
    (∀ tok ∈ jsRawTokensL s.data, tok ≠ [] ∧
      ((∀ c ∈ tok, nonDelim c = true) ∨
        (tok.head? = some '"' ∧ tok.getLast? = some '"' ∧ 3 ≤ tok.length))) ∧
    (∀ tok : List Char, tok.head? = some '"' → tok.getLast? = some '"' →
      stripQuotes tok = (tok.drop 1).dropLast) ∧
    (∀ (c : Char) (t : List Char), nonDelim c = true →
      jsRawTokensL (c :: t) =
        (c :: t).takeWhile nonDelim :: jsRawTokensL ((c :: t).dropWhile nonDelim)) ∧
    jsTokens s = (jsRawTokensL s.data).map (fun tok => String.mk (stripQuotes tok)) ∧
    (∀ (options : Obj) (beh : ProcBeh) (exe : String) (args : List String),
      wfOpts options = true → getv options "command" = some (.vstr s) →
      jsTokens s = exe :: args →
      spawnsOf (run options beh) = [⟨exe, args, spawnProjection options⟩]) ∧
    jsTokens "a \"b c\" d" = ["a", "b c", "d"] ∧
    jsTokens "x \"a\\\"b\"" = ["x", "a\\\"b"] := by
  refine ⟨fun tok h => jsRawTokensF_shape s.data.length s.data tok h,
    ?_, fun c t h => jsRawTokensL_run t h, rfl, ?_, by decide, by decide⟩
  · intro tok h1 h2
    rw [stripQuotes, if_pos ⟨h1, h2⟩]
  · intro options beh exe args hwf hc ht
    obtain ⟨⟨s', exe', args', hc', ht'⟩, hl⟩ := wfOpts_elim hwf
    have hr := run_wf options beh hc ht hl
    rw [spawnsOf, hr]
    have hpre : ∀ s' : String,
        (if truthy? (getv options "verbose") then [RunEv.log s'] else [] :
          List RunEv).filterMap evSpawn = [] := by
      intro s'
      cases truthy? (getv options "verbose") <;> simp [evSpawn]
    simp only [List.filterMap_append, List.filterMap_cons, hpre, chunkEvents_spawn,
      doneEvents_spawn, evSpawn]
    rfl

/-- Witness for claim C6, exercising the shape clause and the
executable/argument split at a concrete quoted command line. -/
theorem claim_C6_wit :
    jsTokens "a \"b c\" d" = ["a", "b c", "d"] ∧
    spawnsOf (run [("command", .vstr "tar \"my file\"")] ⟨[], .close 0⟩) =
      [⟨"tar", ["my file"], []⟩] := by
  have h1 := claim_C6 "a \"b c\" d"
  have h2 := (claim_C6 "tar \"my file\"").2.2.2.2.1
    [("command", .vstr "tar \"my file\"")] ⟨[], .close 0⟩ "tar" ["my file"]
    (by decide) (by decide) (by decide)
  refine ⟨h1.2.2.2.2.2.1, ?_⟩
  rw [h2]
  decide

/-- Claim C1 — for every accepted input (a string, one descriptor, or an
array of strings and descriptors) whose commands are well formed, the
batch resolves — in whichever mode — with exactly one entry per logical
input command, each slot carrying that command's code (a nonzero exit
code such as 2, or an errored process, never fails the batch, for every
choice of process behaviours). -/
theorem claim_C1 (input : JsInput) (options : Obj) (procCwd : String)
    (behs : Nat → ProcBeh) (cmds : List Obj)
    (hnorm : normalizeInput input = some cmds)
    (hwf : ∀ c ∈ cmds, wfOpts (assign (globalOptsOf procCwd options) c) = true) :
    (runMultiple input options procCwd behs).result =
      .ok ((List.range cmds.length).map fun j => codeOf (behs j).terminal) ∧
    ((List.range cmds.length).map fun j => codeOf (behs j).terminal).length =
      cmds.length := by
  constructor
  · cases hmode : chosenMode procCwd options with
    | parallel =>
      simp only [runMultiple, hnorm, hmode]
      exact parExec_wf (globalOptsOf procCwd options) behs cmds hwf
    | sequential =>
      have hseq := seqExec_wf (globalOptsOf procCwd options) behs cmds 0 hwf
      simp only [runMultiple, hnorm, hmode, hseq]
      rw [List.range_eq_range']
  · simp

/-- Witness for claim C1: a mixed string/descriptor batch in which the
first command exits with code 2 and the second errors, run sequentially
and in parallel; both resolve with one entry per command ([2, 5]). -/
theorem claim_C1_wit :
    (runMultiple (.arr [.str "ls", .obj [("command", .vstr "foo")]]) [] "/w"
        (fun i => if i = 0 then ⟨[], .close 2⟩ else ⟨[], .procError 5⟩)).result =
      .ok [2, 5] ∧
    (runMultiple (.arr [.str "ls", .obj [("command", .vstr "foo")]])
        [("mode", .vstr "parallel")] "/w"
        (fun i => if i = 0 then ⟨[], .close 2⟩ else ⟨[], .procError 5⟩)).result =
      .ok [2, 5] := by
  have h1 := claim_C1 (.arr [.str "ls", .obj [("command", .vstr "foo")]]) [] "/w"
    (fun i => if i = 0 then ⟨[], .close 2⟩ else ⟨[], .procError 5⟩)
    [[("command", .vstr "ls")], [("command", .vstr "foo")]] (by decide) (by decide)
  have h2 := claim_C1 (.arr [.str "ls", .obj [("command", .vstr "foo")]])
    [("mode", .vstr "parallel")] "/w"
    (fun i => if i = 0 then ⟨[], .close 2⟩ else ⟨[], .procError 5⟩)
    [[("command", .vstr "ls")], [("command", .vstr "foo")]] (by decide) (by decide)
  exact ⟨h1.1, h2.1⟩

/-- Claim C2 — in parallel mode every command is dispatched immediately
(the `j`-th event of the schedule is the dispatch of command `j`, for
every completion-order choice), every command settles strictly before the
batch promise does, and the resolved collection is ordered by input
position — `parExec` does not even consult the completion order. -/
theorem claim_C2 (input : JsInput) (options : Obj) (procCwd : String)
    (behs : Nat → ProcBeh) (durs : Nat → Nat) (cmds : List Obj)
    (hnorm : normalizeInput input = some cmds)
    (hmode : chosenMode procCwd options = .parallel) :
    (∀ j, j < cmds.length →
      (parEvents cmds.length durs)[j]? = some (SchedEv.dispatch j)) ∧
    (∀ j, j < cmds.length → ∃ l1 l2, parEvents cmds.length durs =
      l1 ++ SchedEv.settle j :: (l2 ++ [SchedEv.batchResolve])) ∧
    ((∀ c ∈ cmds, wfOpts (assign (globalOptsOf procCwd options) c) = true) →
      (runMultiple input options procCwd behs).result =
        .ok ((List.range cmds.length).map fun j => codeOf (behs j).terminal) ∧
      (runMultiple input options procCwd behs).mode = some .parallel) := by
  refine ⟨fun j hj => parEvents_dispatch cmds.length durs hj,
    fun j hj => parEvents_settle_decomp cmds.length durs hj, fun hwf => ⟨?_, ?_⟩⟩
  · simp only [runMultiple, hnorm, hmode]
    exact parExec_wf (globalOptsOf procCwd options) behs cmds hwf
  · simp only [runMultiple, hnorm, hmode]

/-- Witness for claim C2: two parallel commands whose completion order is
reversed by the durations (command 1 settles first), while the resolved
collection stays in input order. -/
theorem claim_C2_wit :
    (parEvents 2 (fun i => 2 - i))[0]? = some (SchedEv.dispatch 0) ∧
    (parEvents 2 (fun i => 2 - i))[1]? = some (SchedEv.dispatch 1) ∧
    parEvents 2 (fun i => 2 - i) =
      [.dispatch 0, .dispatch 1, .settle 1, .settle 0, .batchResolve] ∧
    (runMultiple (.arr [.str "a", .str "b"]) [("mode", .vstr "parallel")] "/w"
        (fun i => ⟨[], .close (Int.ofNat i + 10)⟩)).result = .ok [10, 11] := by
  have h := claim_C2 (.arr [.str "a", .str "b"]) [("mode", .vstr "parallel")] "/w"
    (fun i => ⟨[], .close (Int.ofNat i + 10)⟩) (fun i => 2 - i)
    [[("command", .vstr "a")], [("command", .vstr "b")]] (by decide) (by decide)
  exact ⟨h.1 0 (by decide), h.1 1 (by decide), by decide, (h.2.2 (by decide)).1⟩

/-- Claim C3 — in the (default) sequential mode, whenever command `i+1`
is dispatched at all, command `i` has settled strictly earlier in the
schedule (each event occurring exactly once), and any resolved batch
collection lists the codes in dispatch order, whatever each command's
exit code or error. -/
theorem claim_C3 (input : JsInput) (options : Obj) (procCwd : String)
    (behs : Nat → ProcBeh) (cmds : List Obj) (i : Nat)
    (hnorm : normalizeInput input = some cmds)
    (hmode : chosenMode procCwd options = .sequential)
    (hd : SchedEv.dispatch (i + 1) ∈ seqEvents (globalOptsOf procCwd options) behs cmds) :
    (∃ l1 l2 l3, seqEvents (globalOptsOf procCwd options) behs cmds =
      l1 ++ SchedEv.settle i :: l2 ++ SchedEv.dispatch (i + 1) :: l3) ∧
    (seqEvents (globalOptsOf procCwd options) behs cmds).count (SchedEv.settle i) = 1 ∧
    (seqEvents (globalOptsOf procCwd options) behs cmds).count
      (SchedEv.dispatch (i + 1)) = 1 ∧
    (∀ vs, (runMultiple input options procCwd behs).result = .ok vs →
      vs = (List.range cmds.length).map fun j => codeOf (behs j).terminal) := by
  have hik : i + 1 < (seqExec (globalOptsOf procCwd options) behs cmds 0).1.length := by
    rcases List.mem_append.mp hd with h | h
    · obtain ⟨j, hj, hD | hS⟩ := mem_seqCore h
      · obtain rfl : i + 1 = j := by injection hD
        exact hj
      · simp at hS
    · simp at h
  obtain ⟨r, hr⟩ := seqCore_decomp hik
  have hi : i < (seqExec (globalOptsOf procCwd options) behs cmds 0).1.length := by omega
  refine ⟨⟨seqCore i ++ [SchedEv.dispatch i], [],
      SchedEv.settle (i + 1) :: r ++ [SchedEv.batchResolve], ?_⟩, ?_, ?_, ?_⟩
  · rw [seqEvents, hr]
    simp
  · rw [seqEvents, List.count_append, count_seqCore_settle]
    simp [hi]
  · rw [seqEvents, List.count_append, count_seqCore_dispatch]
    simp [hik]
  · intro vs hres
    simp only [runMultiple, hnorm, hmode] at hres
    rw [seqExec_res_of_ok (globalOptsOf procCwd options) behs cmds 0 vs hres,
      List.range_eq_range']

/-- Witness for claim C3: a concrete two-command sequential batch whose
schedule is dispatch 0, settle 0, dispatch 1, settle 1, batch
resolution. -/
theorem claim_C3_wit :
    (∃ l1 l2 l3, seqEvents (globalOptsOf "/w" []) (fun i => ⟨[], .close (Int.ofNat i)⟩)
      [[("command", .vstr "a")], [("command", .vstr "b")]] =
      l1 ++ SchedEv.settle 0 :: l2 ++ SchedEv.dispatch 1 :: l3) ∧
    (runMultiple (.arr [.str "a", .str "b"]) [] "/w"
        (fun i => ⟨[], .close (Int.ofNat i)⟩)).result = .ok [0, 1] := by
  have h := claim_C3 (.arr [.str "a", .str "b"]) [] "/w"
    (fun i => ⟨[], .close (Int.ofNat i)⟩)
    [[("command", .vstr "a")], [("command", .vstr "b")]] 0 (by decide) (by decide)
    (by decide)
  refine ⟨h.1, ?_⟩
  rw [h.2.2.2 [0, 1] (by decide)]
  decide

/-- Claim C7 (amended) — a malformed `commands` argument (a number, a
boolean, `null`) makes the batch reject at once with the typed
`'Invalid input'` rejection and nothing is dispatched; a command string
that tokenizes to zero tokens also fails the batch with no process
spawned for it, but through an untyped engine `TypeError` thrown inside
the per-command execution (the `null.map` of src/index.js line 52), not
through the typed rejection. -/
theorem claim_C7 (k : Int) (b : Bool) (options : Obj) (procCwd : String)
    (behs : Nat → ProcBeh) (s : String) (ht : jsTokens s = []) :
    runMultiple (.num k) options procCwd behs = ⟨none, [], .err .invalidInput⟩ ∧
    runMultiple .null options procCwd behs = ⟨none, [], .err .invalidInput⟩ ∧
    runMultiple (.bool b) options procCwd behs = ⟨none, [], .err .invalidInput⟩ ∧
    (runMultiple (.str s) [] procCwd behs).result =
      .err (.typeError "cannot read map of null") ∧
    (runMultiple (.str s) [] procCwd behs).traces.flatMap spawnsOf = [] := by
  have hc : getv (assign (globalOptsOf procCwd []) [("command", .vstr s)]) "command" =
      some (.vstr s) := rfl
  have hg : (truthy? (getv (assign (globalOptsOf procCwd []) [("command", .vstr s)])
      "verbose") && !isFn (getv (assign (globalOptsOf procCwd [])
        [("command", .vstr s)]) "logger")) = false := rfl
  have hrun := run_empty_tokens (behs 0) hc ht hg
  refine ⟨rfl, rfl, rfl, ?_, ?_⟩
  · show (seqExec (globalOptsOf procCwd []) behs [[("command", .vstr s)]] 0).2 = _
    simp only [seqExec, hrun.1]
  · show (seqExec (globalOptsOf procCwd []) behs [[("command", .vstr s)]] 0).1.flatMap
      spawnsOf = []
    simp only [seqExec, hrun.1]
    simpa using hrun.2

/-- Counterexample to claim C7 as stated: an empty command string rejects
the batch with a `TypeError`, which is not the typed `'Invalid input'`
rejection. -/
theorem claim_C7_cex :
    (runMultiple (.str "") [] "/w" (fun _ => ⟨[], .close 0⟩)).result =
      .err (.typeError "cannot read map of null") ∧
    JsErr.typeError "cannot read map of null" ≠ .invalidInput := by decide

/-- Witness for claim C7 at concrete malformed inputs and the empty
command string. -/
theorem claim_C7_wit :
    runMultiple (.num 6) [] "/w" (fun _ => ⟨[], .close 0⟩) =
      ⟨none, [], .err .invalidInput⟩ ∧
    runMultiple .null [] "/w" (fun _ => ⟨[], .close 0⟩) =
      ⟨none, [], .err .invalidInput⟩ ∧
    (runMultiple (.str "") [] "/w" (fun _ => ⟨[], .close 0⟩)).traces.flatMap spawnsOf =
      [] := by
  have h := claim_C7 6 true [] "/w" (fun _ => ⟨[], .close 0⟩) "" (by decide)
  exact ⟨h.1, h.2.1, h.2.2.2.2⟩

end NodeRunCmd
